import Mathlib

/-!
Verification of the EVM-style disassembler (disasm.py): the single-pass
code/data segmentation algorithm. Python `bytes` become `List Nat` with
entries `< 256`; the external `smol_evm` decoder is modelled from the
specified collaborator interface (opcode byte, mnemonic, declared push
width, cursor advance of `1 + width` clamped at the buffer end).
-/

namespace Disasm

/-! ### Hex rendering (Python format specifiers) -/

/-- Hex digits of `n / 16 ^ k`-style expansion, most significant first; the
first argument is structural fuel (any fuel `ge` the digit count works). -/
def toHexAux : Nat → Nat → List Char
  | 0, _ => []
  | fuel + 1, n => if n = 0 then [] else toHexAux fuel (n / 16) ++ [Nat.digitChar (n % 16)]

/-- Lowercase hex digits of `n`, most significant first; `n = 0` renders "0",
as Python's format does. -/
def hexDigits (n : Nat) : List Char := if n = 0 then ['0'] else toHexAux n n

/-- Python format spec `0wx` applied to `n`: lowercase hex, left-padded with
zeros to at least `w` digits. -/
def hexPad (w n : Nat) : String := ⟨List.replicate (w - (hexDigits n).length) '0' ++ hexDigits n⟩

/-- Python `bytes.hex()`: every byte as exactly two lowercase hex digits. -/
def bytesHex (bs : List Nat) : String := String.join (bs.map (hexPad 2))

/-- Python `int.from_bytes(bs, byteorder="big")`. -/
def beVal (bs : List Nat) : Nat := bs.foldl (fun a b => a * 256 + b) 0

/-! ### Opcode model (external decoder interface) -/

/-- Modelled from the spec: opcode byte values of the named mnemonics of the
external opcode table (the standard EVM values used by the imported
constants `STOP`, `JUMP`, `JUMPDEST`, `RETURN`, `REVERT`, `INVALID`). -/
def STOP : Nat := 0x00

def JUMP : Nat := 0x56

def JUMPDEST : Nat := 0x5b

def RETURN : Nat := 0xf3

def REVERT : Nat := 0xfd

def INVALID : Nat := 0xfe

/-- The TERMINATING set of disasm.py: opcodes after which the pass
pessimistically switches to data mode. -/
def TERMINATING : List Nat := [JUMP, STOP, REVERT, RETURN, INVALID]

/-- Modelled from the spec: the push family of the external opcode table,
PUSH1 .. PUSH32 at opcode bytes 0x60 .. 0x7f (`insn.is_push()`). -/
def is_push (op : Nat) : Bool := 0x60 ≤ op && op ≤ 0x7f

/-- Modelled from the spec: declared operand width of an opcode, 1 to 32 for
the push family and 0 otherwise (`insn.push_width()`). -/
def push_width (op : Nat) : Nat := if is_push op then op - 0x5f else 0

/-- Modelled from the spec: mnemonic assigned to an opcode byte by the
external opcode table. Only the spec-required names (the terminators,
JUMPDEST and the push family) are fixed; other bytes resolve to a fallback
name, which no claim depends on. -/
def mnemonic (op : Nat) : String :=
  if op = STOP then "STOP"
  else if op = JUMP then "JUMP"
  else if op = JUMPDEST then "JUMPDEST"
  else if op = RETURN then "RETURN"
  else if op = REVERT then "REVERT"
  else if op = INVALID then "INVALID"
  else if is_push op then "PUSH" ++ toString (push_width op)
  else "UNKNOWN"

/-- Modelled from the spec: textual rendering of a non-truncated instruction
by the external library (`str(insn)` in disasm.py): the mnemonic alone when
there is no operand, else the mnemonic and the full operand in 0x-hex. -/
def insnStr (op : Nat) (pushData : List Nat) : String :=
  if is_push op then mnemonic op ++ " 0x" ++ bytesHex pushData else mnemonic op

/-- The slice `code[original_pc + 1 : original_pc + 1 + insn.push_width()]`
of disasm.py (Python slices clamp at the end of the buffer), taken when
`insn.is_push()` and empty otherwise. -/
def push_data (code : List Nat) (pc : Nat) : List Nat :=
  if is_push (code.getD pc 0) then (code.drop (pc + 1)).take (push_width (code.getD pc 0))
  else []

/-- Cursor position after `decode_opcode`: advance past the opcode byte and
its declared operand bytes, clamped at the end of the buffer. -/
def nextPc (code : List Nat) (pc : Nat) : Nat :=
  min (pc + 1 + push_width (code.getD pc 0)) code.length

/-- The text after the offset of a rendered code-mode line: the truncated
push form with the ` # truncated` marker when the captured push data is
shorter than the declared width, else the standard instruction text. -/
def code_line (code : List Nat) (pc : Nat) : String :=
  if is_push (code.getD pc 0) && (push_data code pc).length < push_width (code.getD pc 0) then
    "PUSH" ++ toString (push_width (code.getD pc 0)) ++ " 0x" ++ bytesHex (push_data code pc)
      ++ " # truncated"
  else insnStr (code.getD pc 0) (push_data code pc)

/-- DataSection.render of disasm.py: offset as 4-minimum hex digits, then
`: DATA 0x`, then the accumulated bytes as one big-endian integer zero-padded
to twice the byte count. -/
def renderData (start_pc : Nat) (data : List Nat) : String :=
  hexPad 4 start_pc ++ ": DATA 0x" ++ hexPad (data.length * 2) (beVal data)

/-- Final flush of disasm.py: render the open data section, if any. -/
def dsFlush : Option (Nat × List Nat) → List String
  | some (s, d) => [renderData s d]
  | none => []

/-- Data-mode accumulation of disasm.py: open a section at the current pc on
the first data byte, else append the opcode byte and its push data. -/
def dsPush (ds : Option (Nat × List Nat)) (pc op : Nat) (pd : List Nat) :
    Option (Nat × List Nat) :=
  match ds with
  | some (s, d) => some (s, d ++ op :: pd)
  | none => some (pc, op :: pd)

/-- The while loop of `disassemble` in disasm.py, with structural fuel (one
unit per iteration; `code.length` units always suffice since the cursor
advances by at least one byte per iteration). State: cursor `pc`, the
`reading_code` flag `rc`, and the open data section `ds`. Returns the lines
emitted from this state on. -/
def disasmLoop (code : List Nat) : Nat → Nat → Bool → Option (Nat × List Nat) → List String
  | 0, _, _, ds => dsFlush ds
  | fuel + 1, pc, rc, ds =>
    if pc < code.length then
      if rc || (code.getD pc 0 == JUMPDEST) then
        dsFlush ds ++ (hexPad 4 pc ++ ": " ++ code_line code pc) ::
          disasmLoop code fuel (nextPc code pc) (!(TERMINATING.contains (code.getD pc 0))) none
      else
        disasmLoop code fuel (nextPc code pc) false
          (dsPush ds pc (code.getD pc 0) (push_data code pc))
    else dsFlush ds

/-- `disassemble(code)` of disasm.py. -/
def disassemble (code : List Nat) : List String := disasmLoop code code.length 0 true none

/-- The suffix of the pass starting from an arbitrary state (with exactly the
sufficient fuel). -/
def disasmFrom (code : List Nat) (pc : Nat) (rc : Bool) (ds : Option (Nat × List Nat)) :
    List String :=
  disasmLoop code (code.length - pc) pc rc ds

/-! ### Abstract output events

Each emitted line is either an instruction line at the decode offset, or a
DATA line for a closed region; the events record offset and content before
text rendering. -/

/-- One output line, in structured form. -/
inductive Ev where
  | insn : Nat → String → Ev
  | data : Nat → List Nat → Ev
deriving DecidableEq

/-- The offset embedded at the start of the rendered line of an event. -/
def evOff : Ev → Nat
  | .insn o _ => o
  | .data o _ => o

/-- The text of the rendered line of an event after the offset and ": ". -/
def evRest : Ev → String
  | .insn _ t => t
  | .data _ bs => "DATA 0x" ++ hexPad (bs.length * 2) (beVal bs)

/-- Rendering of one event as the line disasm.py emits for it. -/
def renderEv (e : Ev) : String := hexPad 4 (evOff e) ++ ": " ++ evRest e

/-- Final flush, at the event level. -/
def dsFlushEv : Option (Nat × List Nat) → List Ev
  | some (s, d) => [Ev.data s d]
  | none => []

/-- The while loop of disasm.py again, emitting structured events instead of
rendered lines; same state and same fuel discipline as `disasmLoop`. -/
def disasmEvents (code : List Nat) : Nat → Nat → Bool → Option (Nat × List Nat) → List Ev
  | 0, _, _, ds => dsFlushEv ds
  | fuel + 1, pc, rc, ds =>
    if pc < code.length then
      if rc || (code.getD pc 0 == JUMPDEST) then
        dsFlushEv ds ++ Ev.insn pc (code_line code pc) ::
          disasmEvents code fuel (nextPc code pc) (!(TERMINATING.contains (code.getD pc 0))) none
      else
        disasmEvents code fuel (nextPc code pc) false
          (dsPush ds pc (code.getD pc 0) (push_data code pc))
    else dsFlushEv ds

/-- Result of one iteration of the loop body: successor state and the events
emitted during the iteration. -/
structure StepOut where
  pc : Nat
  readingCode : Bool
  dataSection : Option (Nat × List Nat)
  emitted : List Ev
deriving DecidableEq

/-- One iteration of the loop body of disasm.py (assuming the loop guard
`pc < code.length` holds): decode at `pc`, force code mode on JUMPDEST, and
either flush-and-render (code mode) or accumulate (data mode). -/
def stepPass (code : List Nat) (pc : Nat) (rc : Bool) (ds : Option (Nat × List Nat)) :
    StepOut :=
  if rc || (code.getD pc 0 == JUMPDEST) then
    ⟨nextPc code pc, !(TERMINATING.contains (code.getD pc 0)), none,
      dsFlushEv ds ++ [Ev.insn pc (code_line code pc)]⟩
  else
    ⟨nextPc code pc, false, dsPush ds pc (code.getD pc 0) (push_data code pc), []⟩

/-- The instruction-shaped scan performed in data mode: starting at `pc`,
collect every byte (opcode bytes and their captured push data) until the
first byte decoded at an instruction boundary equals JUMPDEST; return the
collected bytes and that boundary offset (`none` when the buffer ends
first). Fueled like the loops. -/
def dataScanF (code : List Nat) : Nat → Nat → List Nat × Option Nat
  | 0, _ => ([], none)
  | fuel + 1, pc =>
    if pc < code.length then
      if code.getD pc 0 == JUMPDEST then ([], some pc)
      else
        ((code.getD pc 0) :: push_data code pc ++ (dataScanF code fuel (nextPc code pc)).1,
         (dataScanF code fuel (nextPc code pc)).2)
    else ([], none)

/-- The data-mode scan with sufficient fuel. -/
def dataScan (code : List Nat) (pc : Nat) : List Nat × Option Nat :=
  dataScanF code (code.length - pc) pc

/-! ### Basic facts about the cursor and fuel -/

lemma nextPc_bounds (code : List Nat) (pc : Nat) (h : pc < code.length) :
    pc < nextPc code pc ∧ nextPc code pc ≤ code.length := by
  unfold nextPc; omega

lemma disasmLoop_fuel (code : List Nat) :
    ∀ f1 f2 pc rc ds, code.length - pc ≤ f1 → code.length - pc ≤ f2 →
      disasmLoop code f1 pc rc ds = disasmLoop code f2 pc rc ds := by
  intro f1
  induction f1 with
  | zero =>
    intro f2 pc rc ds h1 _
    have hpc : ¬ pc < code.length := by omega
    cases f2 with
    | zero => rfl
    | succ f2 => simp [disasmLoop, hpc]
  | succ f1 ih =>
    intro f2 pc rc ds h1 h2
    cases f2 with
    | zero =>
      have hpc : ¬ pc < code.length := by omega
      simp [disasmLoop, hpc]
    | succ f2 =>
      by_cases hpc : pc < code.length
      · have hb := nextPc_bounds code pc hpc
        simp only [disasmLoop, hpc, if_true]
        rw [ih f2 (nextPc code pc) (!TERMINATING.contains (code.getD pc 0)) none
              (by omega) (by omega),
            ih f2 (nextPc code pc) false (dsPush ds pc (code.getD pc 0) (push_data code pc))
              (by omega) (by omega)]
      · simp [disasmLoop, hpc]

lemma disasmEvents_fuel (code : List Nat) :
    ∀ f1 f2 pc rc ds, code.length - pc ≤ f1 → code.length - pc ≤ f2 →
      disasmEvents code f1 pc rc ds = disasmEvents code f2 pc rc ds := by
  intro f1
  induction f1 with
  | zero =>
    intro f2 pc rc ds h1 _
    have hpc : ¬ pc < code.length := by omega
    cases f2 with
    | zero => rfl
    | succ f2 => simp [disasmEvents, hpc]
  | succ f1 ih =>
    intro f2 pc rc ds h1 h2
    cases f2 with
    | zero =>
      have hpc : ¬ pc < code.length := by omega
      simp [disasmEvents, hpc]
    | succ f2 =>
      by_cases hpc : pc < code.length
      · have hb := nextPc_bounds code pc hpc
        simp only [disasmEvents, hpc, if_true]
        rw [ih f2 (nextPc code pc) (!TERMINATING.contains (code.getD pc 0)) none
              (by omega) (by omega),
            ih f2 (nextPc code pc) false (dsPush ds pc (code.getD pc 0) (push_data code pc))
              (by omega) (by omega)]
      · simp [disasmEvents, hpc]

lemma dataScanF_fuel (code : List Nat) :
    ∀ f1 f2 pc, code.length - pc ≤ f1 → code.length - pc ≤ f2 →
      dataScanF code f1 pc = dataScanF code f2 pc := by
  intro f1
  induction f1 with
  | zero =>
    intro f2 pc h1 _
    have hpc : ¬ pc < code.length := by omega
    cases f2 with
    | zero => rfl
    | succ f2 => simp [dataScanF, hpc]
  | succ f1 ih =>
    intro f2 pc h1 h2
    cases f2 with
    | zero =>
      have hpc : ¬ pc < code.length := by omega
      simp [dataScanF, hpc]
    | succ f2 =>
      by_cases hpc : pc < code.length
      · have hb := nextPc_bounds code pc hpc
        simp only [dataScanF, hpc, if_true]
        rw [ih f2 (nextPc code pc) (by omega) (by omega)]
      · simp [dataScanF, hpc]

/-- Unfolding `disasmFrom` one iteration, in terms of the loop body. -/
lemma disasmFrom_step (code : List Nat) (pc : Nat) (rc : Bool)
    (ds : Option (Nat × List Nat)) (h : pc < code.length) :
    disasmFrom code pc rc ds =
      if rc || (code.getD pc 0 == JUMPDEST) then
        dsFlush ds ++ (hexPad 4 pc ++ ": " ++ code_line code pc) ::
          disasmFrom code (nextPc code pc) (!(TERMINATING.contains (code.getD pc 0))) none
      else
        disasmFrom code (nextPc code pc) false
          (dsPush ds pc (code.getD pc 0) (push_data code pc)) := by
  have hb := nextPc_bounds code pc h
  unfold disasmFrom
  have hf : code.length - pc = (code.length - pc - 1) + 1 := by omega
  rw [hf]
  simp only [disasmLoop, h, if_true]
  by_cases hrc : (rc || (code.getD pc 0 == JUMPDEST)) = true
  · simp only [hrc, if_true]
    rw [disasmLoop_fuel code (code.length - pc - 1) (code.length - nextPc code pc)
      (nextPc code pc) _ _ (by omega) (by omega)]
  · simp only [Bool.not_eq_true] at hrc
    simp only [hrc, Bool.false_eq_true, if_false]
    rw [disasmLoop_fuel code (code.length - pc - 1) (code.length - nextPc code pc)
      (nextPc code pc) _ _ (by omega) (by omega)]

/-- Exiting `disasmFrom` when the cursor is at or past the end. -/
lemma disasmFrom_exit (code : List Nat) (pc : Nat) (rc : Bool)
    (ds : Option (Nat × List Nat)) (h : code.length ≤ pc) :
    disasmFrom code pc rc ds = dsFlush ds := by
  unfold disasmFrom
  have hf : code.length - pc = 0 := by omega
  rw [hf]
  rfl

/-- The event stream of the pass from an arbitrary state. -/
def eventsFrom (code : List Nat) (pc : Nat) (rc : Bool) (ds : Option (Nat × List Nat)) :
    List Ev :=
  disasmEvents code (code.length - pc) pc rc ds

/-- One iteration of the event stream is exactly one application of the loop
body `stepPass`. -/
lemma eventsFrom_step (code : List Nat) (pc : Nat) (rc : Bool)
    (ds : Option (Nat × List Nat)) (h : pc < code.length) :
    eventsFrom code pc rc ds =
      (stepPass code pc rc ds).emitted ++
        eventsFrom code (stepPass code pc rc ds).pc (stepPass code pc rc ds).readingCode
          (stepPass code pc rc ds).dataSection := by
  have hb := nextPc_bounds code pc h
  unfold eventsFrom stepPass
  have hf : code.length - pc = (code.length - pc - 1) + 1 := by omega
  rw [hf]
  simp only [disasmEvents, h, if_true]
  by_cases hrc : (rc || (code.getD pc 0 == JUMPDEST)) = true
  · simp only [hrc, if_true, List.append_assoc, List.singleton_append]
    rw [disasmEvents_fuel code (code.length - pc - 1) (code.length - nextPc code pc)
      (nextPc code pc) _ _ (by omega) (by omega)]
  · simp only [Bool.not_eq_true] at hrc
    simp only [hrc, Bool.false_eq_true, if_false, List.nil_append]
    rw [disasmEvents_fuel code (code.length - pc - 1) (code.length - nextPc code pc)
      (nextPc code pc) _ _ (by omega) (by omega)]

/-- Exiting the event stream when the cursor is at or past the end. -/
lemma eventsFrom_exit (code : List Nat) (pc : Nat) (rc : Bool)
    (ds : Option (Nat × List Nat)) (h : code.length ≤ pc) :
    eventsFrom code pc rc ds = dsFlushEv ds := by
  unfold eventsFrom
  have hf : code.length - pc = 0 := by omega
  rw [hf]
  rfl

/-- Unfolding the data-mode scan at a non-JUMPDEST byte. -/
lemma dataScan_cont (code : List Nat) (pc : Nat) (h : pc < code.length)
    (hj : ¬ code.getD pc 0 = JUMPDEST) :
    dataScan code pc =
      ((code.getD pc 0) :: push_data code pc ++ (dataScan code (nextPc code pc)).1,
        (dataScan code (nextPc code pc)).2) := by
  have hb := nextPc_bounds code pc h
  unfold dataScan
  have hf : code.length - pc = (code.length - pc - 1) + 1 := by omega
  rw [hf]
  have hj' : (code.getD pc 0 == JUMPDEST) = false := by
    simpa using hj
  simp only [dataScanF, h, if_true, hj', Bool.false_eq_true, if_false]
  rw [dataScanF_fuel code (code.length - pc - 1) (code.length - nextPc code pc)
    (nextPc code pc) (by omega) (by omega)]

/-- The data-mode scan stops at a decoded JUMPDEST byte. -/
lemma dataScan_jumpdest (code : List Nat) (pc : Nat) (h : pc < code.length)
    (hj : code.getD pc 0 = JUMPDEST) :
    dataScan code pc = ([], some pc) := by
  unfold dataScan
  have hf : code.length - pc = (code.length - pc - 1) + 1 := by omega
  rw [hf]
  have hj' : (code.getD pc 0 == JUMPDEST) = true := beq_iff_eq.mpr hj
  show dataScanF code (code.length - pc - 1 + 1) pc = ([], some pc)
  unfold dataScanF
  rw [if_pos h, if_pos hj']

/-- The data-mode scan at or past the end of the buffer. -/
lemma dataScan_exit (code : List Nat) (pc : Nat) (h : code.length ≤ pc) :
    dataScan code pc = ([], none) := by
  unfold dataScan
  have hf : code.length - pc = 0 := by omega
  rw [hf]
  rfl

/-- Rendering an instruction event. -/
lemma renderEv_insn (o : Nat) (t : String) :
    renderEv (Ev.insn o t) = hexPad 4 o ++ ": " ++ t := rfl

/-- Rendering a data event gives exactly the DataSection.render line. -/
lemma renderEv_data (s : Nat) (d : List Nat) : renderEv (Ev.data s d) = renderData s d := by
  show hexPad 4 s ++ ": " ++ ("DATA 0x" ++ hexPad (d.length * 2) (beVal d)) =
    hexPad 4 s ++ ": DATA 0x" ++ hexPad (d.length * 2) (beVal d)
  rw [String.append_assoc, String.append_assoc, ← String.append_assoc ": "]
  rfl

/-- The rendered output of the pass is the event stream rendered line by
line. -/
lemma disasmLoop_eq_map (code : List Nat) :
    ∀ fuel pc rc ds,
      disasmLoop code fuel pc rc ds = (disasmEvents code fuel pc rc ds).map renderEv := by
  intro fuel
  induction fuel with
  | zero =>
    intro pc rc ds
    cases ds with
    | none => rfl
    | some sd => simp [disasmLoop, disasmEvents, dsFlush, dsFlushEv, renderEv_data]
  | succ fuel ih =>
    intro pc rc ds
    by_cases hpc : pc < code.length
    · simp only [disasmLoop, disasmEvents, hpc, if_true]
      by_cases hrc : (rc || (code.getD pc 0 == JUMPDEST)) = true
      · simp only [hrc, if_true, List.map_append, List.map_cons, ih]
        cases ds with
        | none => simp [dsFlush, dsFlushEv, renderEv_insn]
        | some sd =>
          obtain ⟨s, d⟩ := sd
          simp [dsFlush, dsFlushEv, renderEv_insn, renderEv_data]
      · simp only [Bool.not_eq_true] at hrc
        simp only [hrc, Bool.false_eq_true, if_false, ih]
    · simp only [disasmLoop, disasmEvents, hpc, if_false]
      cases ds with
      | none => rfl
      | some sd => simp [dsFlush, dsFlushEv, renderEv_data]

/-- `disassemble` renders its own event stream. -/
lemma disassemble_eq_map (code : List Nat) :
    disassemble code = (eventsFrom code 0 true none).map renderEv := by
  unfold disassemble eventsFrom
  rw [disasmLoop_eq_map, Nat.sub_zero]

/-- `disasmFrom` renders the event stream of the same state. -/
lemma disasmFrom_eq_map (code : List Nat) (pc : Nat) (rc : Bool)
    (ds : Option (Nat × List Nat)) :
    disasmFrom code pc rc ds = (eventsFrom code pc rc ds).map renderEv := by
  unfold disasmFrom eventsFrom
  rw [disasmLoop_eq_map]

/-! ### The data-mode scan: boundary and coverage facts -/

/-- The captured push data is always the clamped slice of declared width
after the opcode byte. -/
lemma push_data_eq (code : List Nat) (pc : Nat) :
    push_data code pc = (code.drop (pc + 1)).take (push_width (code.getD pc 0)) := by
  unfold push_data push_width
  by_cases hp : is_push (code.getD pc 0) = true
  · rw [if_pos hp, if_pos hp]
  · rw [if_neg hp, if_neg hp, List.take_zero]

/-- When the data-mode scan reports a JUMPDEST boundary, that boundary is a
position at or after the start, inside the buffer, holding a JUMPDEST byte. -/
lemma dataScan_some_facts (code : List Nat) :
    ∀ k pc q, code.length - pc ≤ k → (dataScan code pc).2 = some q →
      pc ≤ q ∧ q < code.length ∧ code.getD q 0 = JUMPDEST := by
  intro k
  induction k with
  | zero =>
    intro pc q hk hq
    rw [dataScan_exit code pc (by omega)] at hq
    simp at hq
  | succ k ih =>
    intro pc q hk hq
    by_cases hpc : pc < code.length
    · by_cases hj : code.getD pc 0 = JUMPDEST
      · rw [dataScan_jumpdest code pc hpc hj] at hq
        have hq' : pc = q := by simpa using hq
        subst hq'
        exact ⟨Nat.le_refl _, hpc, hj⟩
      · rw [dataScan_cont code pc hpc hj] at hq
        replace hq : (dataScan code (nextPc code pc)).2 = some q := hq
        have hb := nextPc_bounds code pc hpc
        have hih := ih (nextPc code pc) q (by omega) hq
        exact ⟨by omega, hih.2.1, hih.2.2⟩
    · rw [dataScan_exit code pc (by omega)] at hq
      simp at hq

/-- The bytes collected by the data-mode scan are exactly the contiguous
buffer bytes from the start of the scan up to the reported JUMPDEST boundary
(or the end of the buffer). -/
lemma dataScan_bytes (code : List Nat) :
    ∀ k pc, code.length - pc ≤ k →
      (dataScan code pc).1 =
        (code.drop pc).take (((dataScan code pc).2).getD code.length - pc) := by
  intro k
  induction k with
  | zero =>
    intro pc hk
    rw [dataScan_exit code pc (by omega)]
    simp [List.drop_eq_nil_of_le (show code.length ≤ pc by omega)]
  | succ k ih =>
    intro pc hk
    by_cases hpc : pc < code.length
    · by_cases hj : code.getD pc 0 = JUMPDEST
      · rw [dataScan_jumpdest code pc hpc hj]
        simp
      · have hb := nextPc_bounds code pc hpc
        have hih := ih (nextPc code pc) (by omega)
        have hjv : nextPc code pc ≤ ((dataScan code (nextPc code pc)).2).getD code.length ∧
            ((dataScan code (nextPc code pc)).2).getD code.length ≤ code.length := by
          rcases hq : (dataScan code (nextPc code pc)).2 with _ | q
          · simp only [Option.getD_none]
            exact ⟨hb.2, Nat.le_refl _⟩
          · have hf := dataScan_some_facts code (code.length - nextPc code pc)
              (nextPc code pc) q (by omega) hq
            simp only [Option.getD_some]
            exact ⟨hf.1, Nat.le_of_lt hf.2.1⟩
        rw [dataScan_cont code pc hpc hj]
        show code.getD pc 0 :: push_data code pc ++ (dataScan code (nextPc code pc)).1 =
          (code.drop pc).take (((dataScan code (nextPc code pc)).2).getD code.length - pc)
        rw [List.drop_eq_getElem_cons hpc]
        have hsub : ((dataScan code (nextPc code pc)).2).getD code.length - pc =
            (((dataScan code (nextPc code pc)).2).getD code.length - (pc + 1)) + 1 := by
          omega
        rw [hsub, List.take_succ_cons]
        have hdrop : code.drop (nextPc code pc) =
            (code.drop (pc + 1)).drop (nextPc code pc - (pc + 1)) := by
          rw [List.drop_drop]
          congr 1
          omega
        have htk : (code.drop (pc + 1)).take (push_width (code.getD pc 0)) =
            (code.drop (pc + 1)).take (nextPc code pc - (pc + 1)) := by
          rw [List.take_eq_take, List.length_drop]
          have hnx : nextPc code pc = min (pc + 1 + push_width (code.getD pc 0)) code.length :=
            rfl
          omega
        rw [List.getD_eq_getElem code 0 hpc, push_data_eq, hih, hdrop, htk]
        simp only [List.cons_append]
        rw [← List.take_add]
        have hcnt : nextPc code pc - (pc + 1) +
              (((dataScan code (nextPc code pc)).2).getD code.length - nextPc code pc) =
            ((dataScan code (nextPc code pc)).2).getD code.length - (pc + 1) := by
          omega
        rw [hcnt]
    · rw [dataScan_exit code pc (by omega)]
      simp [List.drop_eq_nil_of_le (show code.length ≤ pc by omega)]

/-! ### Characterization of the pass while in data mode -/

/-- The output after the data-mode scan ends: nothing when the buffer ended,
else the JUMPDEST instruction line at the boundary followed by the code-mode
suffix of the pass. -/
def afterScan (code : List Nat) : Option Nat → List String
  | none => []
  | some q =>
    (hexPad 4 q ++ ": " ++ code_line code q) :: disasmFrom code (nextPc code q) true none

lemma contains_JUMPDEST : TERMINATING.contains JUMPDEST = false := by decide

/-- Running the pass in data mode with an open region `(s, d)`: the region
absorbs exactly the bytes of the data-mode scan, is rendered as one DATA
line, and the pass continues at the JUMPDEST boundary (if any) in code
mode. -/
lemma dataMode_run_aux (code : List Nat) :
    ∀ k pc s d, code.length - pc ≤ k →
      disasmFrom code pc false (some (s, d)) =
        renderData s (d ++ (dataScan code pc).1) :: afterScan code (dataScan code pc).2 := by
  intro k
  induction k with
  | zero =>
    intro pc s d hk
    rw [disasmFrom_exit code pc _ _ (by omega), dataScan_exit code pc (by omega)]
    simp [dsFlush, afterScan]
  | succ k ih =>
    intro pc s d hk
    by_cases hpc : pc < code.length
    · by_cases hj : code.getD pc 0 = JUMPDEST
      · rw [disasmFrom_step code pc false (some (s, d)) hpc,
            dataScan_jumpdest code pc hpc hj,
            if_pos (show (false || (code.getD pc 0 == JUMPDEST)) = true by rw [Bool.false_or]; exact beq_iff_eq.mpr hj),
            hj, contains_JUMPDEST]
        simp [dsFlush, afterScan]
      · rw [disasmFrom_step code pc false (some (s, d)) hpc,
            if_neg (show ¬ (false || (code.getD pc 0 == JUMPDEST)) = true by rw [Bool.false_or]; simp only [beq_iff_eq]; exact hj),
            dataScan_cont code pc hpc hj]
        have hb := nextPc_bounds code pc hpc
        simp only [dsPush]
        rw [ih (nextPc code pc) s (d ++ (code.getD pc 0) :: push_data code pc) (by omega)]
        simp [List.append_assoc, List.cons_append, afterScan]
    · rw [disasmFrom_exit code pc _ _ (by omega), dataScan_exit code pc (by omega)]
      simp [dsFlush, afterScan]

/-- `dataMode_run_aux` with the fuel bound discharged. -/
lemma dataMode_run (code : List Nat) (pc s : Nat) (d : List Nat) :
    disasmFrom code pc false (some (s, d)) =
      renderData s (d ++ (dataScan code pc).1) :: afterScan code (dataScan code pc).2 :=
  dataMode_run_aux code (code.length - pc) pc s d (Nat.le_refl _)

/-- Running the pass in data mode with no open region yet: a region is opened
at the current offset exactly when at least one byte is scanned, and is
rendered as one DATA line before the JUMPDEST boundary (if any). -/
lemma dataModeNone_run (code : List Nat) (pc : Nat) :
    disasmFrom code pc false none =
      (if (dataScan code pc).1 = [] then [] else [renderData pc (dataScan code pc).1]) ++
        afterScan code (dataScan code pc).2 := by
  by_cases hpc : pc < code.length
  · by_cases hj : code.getD pc 0 = JUMPDEST
    · rw [disasmFrom_step code pc false none hpc, dataScan_jumpdest code pc hpc hj,
          if_pos (show (false || (code.getD pc 0 == JUMPDEST)) = true by rw [Bool.false_or]; exact beq_iff_eq.mpr hj),
          hj, contains_JUMPDEST]
      simp [dsFlush, afterScan]
    · rw [disasmFrom_step code pc false none hpc,
          if_neg (show ¬ (false || (code.getD pc 0 == JUMPDEST)) = true by rw [Bool.false_or]; simp only [beq_iff_eq]; exact hj),
          dataScan_cont code pc hpc hj]
      simp only [dsPush]
      rw [dataMode_run code (nextPc code pc) pc ((code.getD pc 0) :: push_data code pc)]
      simp [afterScan]
  · rw [disasmFrom_exit code pc _ _ (by omega), dataScan_exit code pc (by omega)]
    simp [dsFlush, afterScan]

/-! ### Invariants of the event stream -/

/-- Code-mode iteration of the event stream, unfolded. -/
lemma eventsFrom_code_step (code : List Nat) (pc : Nat) (rc : Bool)
    (ds : Option (Nat × List Nat)) (hpc : pc < code.length)
    (hg : (rc || (code.getD pc 0 == JUMPDEST)) = true) :
    eventsFrom code pc rc ds =
      dsFlushEv ds ++ Ev.insn pc (code_line code pc) ::
        eventsFrom code (nextPc code pc) (!(TERMINATING.contains (code.getD pc 0))) none := by
  rw [eventsFrom_step code pc rc ds hpc]
  unfold stepPass
  rw [if_pos hg]
  simp

/-- Data-mode iteration of the event stream, unfolded. -/
lemma eventsFrom_data_step (code : List Nat) (pc : Nat) (rc : Bool)
    (ds : Option (Nat × List Nat)) (hpc : pc < code.length)
    (hg : ¬ (rc || (code.getD pc 0 == JUMPDEST)) = true) :
    eventsFrom code pc rc ds =
      eventsFrom code (nextPc code pc) false (dsPush ds pc (code.getD pc 0) (push_data code pc)) := by
  rw [eventsFrom_step code pc rc ds hpc]
  unfold stepPass
  rw [if_neg hg]
  simp

/-- A data event emitted from a state whose open region (if any) is nonempty
always carries a nonempty byte list. -/
lemma dataEv_nonempty (code : List Nat) :
    ∀ k pc rc ds, code.length - pc ≤ k →
      (∀ s d, ds = some (s, d) → d ≠ []) →
      ∀ s d, Ev.data s d ∈ eventsFrom code pc rc ds → d ≠ [] := by
  intro k
  induction k with
  | zero =>
    intro pc rc ds hk hds s d hmem
    rw [eventsFrom_exit code pc rc ds (by omega)] at hmem
    cases ds with
    | none => simp [dsFlushEv] at hmem
    | some sd =>
      obtain ⟨s0, d0⟩ := sd
      simp [dsFlushEv] at hmem
      exact hmem.2 ▸ hds s0 d0 rfl
  | succ k ih =>
    intro pc rc ds hk hds s d hmem
    by_cases hpc : pc < code.length
    · have hb := nextPc_bounds code pc hpc
      by_cases hg : (rc || (code.getD pc 0 == JUMPDEST)) = true
      · rw [eventsFrom_code_step code pc rc ds hpc hg] at hmem
        rcases List.mem_append.mp hmem with hm | hm
        · cases ds with
          | none => simp [dsFlushEv] at hm
          | some sd =>
            obtain ⟨s0, d0⟩ := sd
            simp [dsFlushEv] at hm
            exact hm.2 ▸ hds s0 d0 rfl
        · rcases List.mem_cons.mp hm with hm' | hm'
          · exact absurd hm' (by simp)
          · exact ih (nextPc code pc) _ none (by omega) (by simp) s d hm'
      · rw [eventsFrom_data_step code pc rc ds hpc hg] at hmem
        refine ih (nextPc code pc) false _ (by omega) ?_ s d hmem
        intro s1 d1 hd1
        cases ds with
        | none =>
          simp [dsPush] at hd1
          simp [← hd1.2]
        | some sd =>
          obtain ⟨s0, d0⟩ := sd
          simp [dsPush] at hd1
          simp [← hd1.2]
    · rw [eventsFrom_exit code pc rc ds (by omega)] at hmem
      cases ds with
      | none => simp [dsFlushEv] at hmem
      | some sd =>
        obtain ⟨s0, d0⟩ := sd
        simp [dsFlushEv] at hmem
        exact hmem.2 ▸ hds s0 d0 rfl

/-- One loop iteration preserves the state invariant: an open data section
exists only in data mode, and is nonempty. -/
lemma stepPass_inv (code : List Nat) (pc : Nat) (rc : Bool) (ds : Option (Nat × List Nat))
    (h1 : rc = true → ds = none) (h2 : ∀ s d, ds = some (s, d) → d ≠ []) :
    ((stepPass code pc rc ds).readingCode = true →
      (stepPass code pc rc ds).dataSection = none) ∧
    (∀ s d, (stepPass code pc rc ds).dataSection = some (s, d) → d ≠ []) := by
  unfold stepPass
  by_cases hg : (rc || (code.getD pc 0 == JUMPDEST)) = true
  · rw [if_pos hg]
    exact ⟨fun _ => rfl, fun s d h => by simp at h⟩
  · rw [if_neg hg]
    refine ⟨fun h => by simp at h, fun s d h => ?_⟩
    cases ds with
    | none =>
      simp [dsPush] at h
      simp [← h.2]
    | some sd =>
      obtain ⟨s0, d0⟩ := sd
      simp [dsPush] at h
      simp [← h.2]

/-- Lower bound on offset of events still to come: the open region's start,
else the cursor. -/
def dsLow (pc : Nat) : Option (Nat × List Nat) → Nat
  | some (s, _) => s
  | none => pc

/-- Offsets of emitted events are strictly increasing, and bounded below by
the open region's start (or the cursor). -/
lemma events_mono (code : List Nat) :
    ∀ k pc rc ds, code.length - pc ≤ k →
      (∀ s d, ds = some (s, d) → s < pc) →
      List.Chain' (fun a b => evOff a < evOff b) (eventsFrom code pc rc ds) ∧
      (∀ e ∈ eventsFrom code pc rc ds, dsLow pc ds ≤ evOff e) := by
  intro k
  induction k with
  | zero =>
    intro pc rc ds hk hds
    rw [eventsFrom_exit code pc rc ds (by omega)]
    cases ds with
    | none => simp [dsFlushEv]
    | some sd =>
      obtain ⟨s0, d0⟩ := sd
      simp [dsFlushEv, dsLow, evOff]
  | succ k ih =>
    intro pc rc ds hk hds
    by_cases hpc : pc < code.length
    · have hb := nextPc_bounds code pc hpc
      by_cases hg : (rc || (code.getD pc 0 == JUMPDEST)) = true
      · rw [eventsFrom_code_step code pc rc ds hpc hg]
        have hih := ih (nextPc code pc) (!(TERMINATING.contains (code.getD pc 0))) none
          (by omega) (by simp)
        have htail : ∀ e ∈ eventsFrom code (nextPc code pc)
            (!(TERMINATING.contains (code.getD pc 0))) none, pc < evOff e := by
          intro e he
          have := hih.2 e he
          simp [dsLow] at this
          omega
        have hchain : List.Chain' (fun a b => evOff a < evOff b)
            (Ev.insn pc (code_line code pc) ::
              eventsFrom code (nextPc code pc) (!(TERMINATING.contains (code.getD pc 0))) none) := by
          rw [List.chain'_cons']
          refine ⟨fun y hy => ?_, hih.1⟩
          exact htail y (List.mem_of_mem_head? hy)
        cases ds with
        | none =>
          simp only [dsFlushEv, List.nil_append]
          refine ⟨hchain, ?_⟩
          intro e he
          rcases List.mem_cons.mp he with h | h
          · simp [h, dsLow, evOff]
          · exact Nat.le_of_lt (htail e h)
        | some sd =>
          obtain ⟨s0, d0⟩ := sd
          have hs0 : s0 < pc := hds s0 d0 rfl
          simp only [dsFlushEv, List.singleton_append]
          constructor
          · rw [List.chain'_cons]
            exact ⟨by simp [evOff]; omega, hchain⟩
          · intro e he
            rcases List.mem_cons.mp he with h | h
            · simp [h, dsLow, evOff]
            · rcases List.mem_cons.mp h with h' | h'
              · simp [h', dsLow, evOff]
                omega
              · have := htail e h'
                simp [dsLow]
                omega
      · rw [eventsFrom_data_step code pc rc ds hpc hg]
        have hds' : ∀ s d, dsPush ds pc (code.getD pc 0) (push_data code pc) = some (s, d) →
            s < nextPc code pc := by
          intro s d h
          cases ds with
          | none =>
            simp [dsPush] at h
            omega
          | some sd =>
            obtain ⟨s0, d0⟩ := sd
            have hs0 : s0 < pc := hds s0 d0 rfl
            simp [dsPush] at h
            omega
        have hih := ih (nextPc code pc) false _ (by omega) hds'
        refine ⟨hih.1, ?_⟩
        intro e he
        have := hih.2 e he
        cases ds with
        | none =>
          simp [dsPush, dsLow] at this ⊢
          omega
        | some sd =>
          obtain ⟨s0, d0⟩ := sd
          simp [dsPush, dsLow] at this ⊢
          omega
    · rw [eventsFrom_exit code pc rc ds (by omega)]
      cases ds with
      | none => simp [dsFlushEv]
      | some sd =>
        obtain ⟨s0, d0⟩ := sd
        simp [dsFlushEv, dsLow, evOff]

/-- Offsets of emitted events lie inside the buffer. -/
lemma events_off_lt (code : List Nat) :
    ∀ k pc rc ds, code.length - pc ≤ k →
      (∀ s d, ds = some (s, d) → s < code.length) →
      ∀ e ∈ eventsFrom code pc rc ds, evOff e < code.length := by
  intro k
  induction k with
  | zero =>
    intro pc rc ds hk hds e he
    rw [eventsFrom_exit code pc rc ds (by omega)] at he
    cases ds with
    | none => simp [dsFlushEv] at he
    | some sd =>
      obtain ⟨s0, d0⟩ := sd
      simp [dsFlushEv] at he
      rw [he]
      exact hds s0 d0 rfl
  | succ k ih =>
    intro pc rc ds hk hds e he
    by_cases hpc : pc < code.length
    · have hb := nextPc_bounds code pc hpc
      by_cases hg : (rc || (code.getD pc 0 == JUMPDEST)) = true
      · rw [eventsFrom_code_step code pc rc ds hpc hg] at he
        rcases List.mem_append.mp he with h | h
        · cases ds with
          | none => simp [dsFlushEv] at h
          | some sd =>
            obtain ⟨s0, d0⟩ := sd
            simp [dsFlushEv] at h
            rw [h]
            exact hds s0 d0 rfl
        · rcases List.mem_cons.mp h with h' | h'
          · rw [h']
            exact hpc
          · exact ih (nextPc code pc) _ none (by omega) (by simp) e h'
      · rw [eventsFrom_data_step code pc rc ds hpc hg] at he
        refine ih (nextPc code pc) false _ (by omega) ?_ e he
        intro s d h
        cases ds with
        | none =>
          simp [dsPush] at h
          omega
        | some sd =>
          obtain ⟨s0, d0⟩ := sd
          have := hds s0 d0 rfl
          simp [dsPush] at h
          omega
    · rw [eventsFrom_exit code pc rc ds (by omega)] at he
      cases ds with
      | none => simp [dsFlushEv] at he
      | some sd =>
        obtain ⟨s0, d0⟩ := sd
        simp [dsFlushEv] at he
        rw [he]
        exact hds s0 d0 rfl

/-- Whether an event is a DATA region line. -/
def evIsData : Ev → Bool
  | .data _ _ => true
  | .insn _ _ => false

/-- Adjacency discipline of the output: a DATA line is never first after a
DATA line. -/
def okEv (a b : Ev) : Prop := evIsData b = true → evIsData a = false

/-- Every data event emitted is immediately preceded (in the extended list
with a virtual predecessor) by an instruction event, as long as a region can
only be open in data mode and the predecessor is an instruction unless the
pass is in code mode. -/
lemma events_chain (code : List Nat) :
    ∀ k pc rc ds (prev : Ev), code.length - pc ≤ k →
      (rc = true → ds = none) →
      (evIsData prev = false ∨ rc = true) →
      List.Chain' okEv (prev :: eventsFrom code pc rc ds) := by
  intro k
  induction k with
  | zero =>
    intro pc rc ds prev hk h1 h3
    rw [eventsFrom_exit code pc rc ds (by omega)]
    cases ds with
    | none => simp [dsFlushEv]
    | some sd =>
      obtain ⟨s0, d0⟩ := sd
      have hprev : evIsData prev = false := by
        rcases h3 with h | h
        · exact h
        · exact absurd (h1 h) (by simp)
      simp [dsFlushEv, List.chain'_cons, okEv, hprev]
  | succ k ih =>
    intro pc rc ds prev hk h1 h3
    by_cases hpc : pc < code.length
    · have hb := nextPc_bounds code pc hpc
      by_cases hg : (rc || (code.getD pc 0 == JUMPDEST)) = true
      · rw [eventsFrom_code_step code pc rc ds hpc hg]
        have htail := ih (nextPc code pc) (!(TERMINATING.contains (code.getD pc 0))) none
          (Ev.insn pc (code_line code pc)) (by omega) (fun _ => rfl) (Or.inl rfl)
        cases ds with
        | none =>
          simp only [dsFlushEv, List.nil_append]
          rw [List.chain'_cons]
          exact ⟨by simp [okEv, evIsData], htail⟩
        | some sd =>
          obtain ⟨s0, d0⟩ := sd
          have hprev : evIsData prev = false := by
            rcases h3 with h | h
            · exact h
            · exact absurd (h1 h) (by simp)
          simp only [dsFlushEv, List.singleton_append]
          rw [List.chain'_cons]
          refine ⟨by simp [okEv, hprev], ?_⟩
          rw [List.chain'_cons]
          exact ⟨by simp [okEv, evIsData], htail⟩
      · have hrc : rc = false := by
          cases rc with
          | false => rfl
          | true => simp at hg
        have hprev : evIsData prev = false := by
          rcases h3 with h | h
          · exact h
          · rw [h] at hrc
            exact absurd hrc (by simp)
        rw [eventsFrom_data_step code pc rc ds hpc hg]
        exact ih (nextPc code pc) false _ prev (by omega) (by simp) (Or.inl hprev)
    · rw [eventsFrom_exit code pc rc ds (by omega)]
      cases ds with
      | none => simp [dsFlushEv]
      | some sd =>
        obtain ⟨s0, d0⟩ := sd
        have hprev : evIsData prev = false := by
          rcases h3 with h | h
          · exact h
          · exact absurd (h1 h) (by simp)
        simp [dsFlushEv, List.chain'_cons, okEv, hprev]

/-- From a code-mode state with no open region, the first emitted event (if
any) is an instruction line. -/
lemma eventsFrom_code_head (code : List Nat) (pc : Nat) :
    ∀ e, (eventsFrom code pc true none).head? = some e → ∃ o t, e = Ev.insn o t := by
  intro e he
  by_cases hpc : pc < code.length
  · rw [eventsFrom_code_step code pc true none hpc (by simp)] at he
    simp only [dsFlushEv, List.nil_append, List.head?_cons, Option.some.injEq] at he
    exact ⟨pc, code_line code pc, he.symm⟩
  · rw [eventsFrom_exit code pc true none (by omega)] at he
    simp [dsFlushEv] at he

/-! ### Facts about the hex rendering -/

lemma toHexAux_eq (fuel : Nat) :
    ∀ n, n ≤ fuel → toHexAux fuel n = ((Nat.digits 16 n).map Nat.digitChar).reverse := by
  induction fuel with
  | zero =>
    intro n hn
    have hn0 : n = 0 := by omega
    subst hn0
    simp [toHexAux]
  | succ fuel ih =>
    intro n hn
    by_cases h0 : n = 0
    · subst h0
      simp [toHexAux]
    · have hdiv : n / 16 < n := Nat.div_lt_self (by omega) (by norm_num)
      rw [show toHexAux (fuel + 1) n = toHexAux fuel (n / 16) ++ [Nat.digitChar (n % 16)] by
            simp [toHexAux, h0],
          ih (n / 16) (by omega),
          Nat.digits_def' (by norm_num : (1 : ℕ) < 16) (by omega : 0 < n)]
      simp

lemma hexDigits_len_pos (n : Nat) (h : n ≠ 0) :
    (hexDigits n).length = (Nat.digits 16 n).length := by
  rw [hexDigits, if_neg h, toHexAux_eq n n (Nat.le_refl n)]
  simp

lemma digits_len_le_of_lt (n k : Nat) (h : n < 16 ^ k) :
    (Nat.digits 16 n).length ≤ k := by
  by_cases h0 : n = 0
  · subst h0
    simp
  · by_contra hgt
    have hk1 : k + 1 ≤ (Nat.digits 16 n).length := by omega
    have h1 : (16 : ℕ) ^ (k + 1) ≤ 16 ^ (Nat.digits 16 n).length :=
      Nat.pow_le_pow_right (by norm_num) hk1
    have h2 := Nat.base_pow_length_digits_le 16 n (by norm_num) h0
    have h3 : (16 : ℕ) ^ (k + 1) = 16 * 16 ^ k := by ring
    have h4 : 16 * 16 ^ k ≤ 16 * n := by omega
    have h5 : 16 ^ k ≤ n := Nat.le_of_mul_le_mul_left h4 (by norm_num)
    omega

lemma hexDigits_len_le (n k : Nat) (hk : 0 < k) (h : n < 16 ^ k) :
    (hexDigits n).length ≤ k := by
  by_cases h0 : n = 0
  · subst h0
    simp [hexDigits]
    omega
  · rw [hexDigits_len_pos n h0]
    exact digits_len_le_of_lt n k h

lemma hexPad_data (w n : Nat) :
    (hexPad w n).data = List.replicate (w - (hexDigits n).length) '0' ++ hexDigits n := rfl

lemma hexPad_length (w n : Nat) (hw : 0 < w) (h : n < 16 ^ w) :
    (hexPad w n).length = w := by
  have hle := hexDigits_len_le n w hw h
  show (hexPad w n).data.length = w
  rw [hexPad_data, List.length_append, List.length_replicate]
  omega

lemma beVal_aux (bs : List Nat) :
    ∀ a, (∀ b ∈ bs, b < 256) →
      bs.foldl (fun a b => a * 256 + b) a < (a + 1) * 256 ^ bs.length := by
  induction bs with
  | nil =>
    intro a _
    simp
  | cons x bs ih =>
    intro a hb
    have hx : x < 256 := hb x (List.mem_cons_self x bs)
    have hih := ih (a * 256 + x) (fun b h => hb b (List.mem_cons_of_mem x h))
    have hstep : (a * 256 + x + 1) * 256 ^ bs.length ≤ (a + 1) * 256 ^ (bs.length + 1) := by
      have h1 : a * 256 + x + 1 ≤ (a + 1) * 256 := by omega
      calc (a * 256 + x + 1) * 256 ^ bs.length
          ≤ (a + 1) * 256 * 256 ^ bs.length := Nat.mul_le_mul_right _ h1
        _ = (a + 1) * 256 ^ (bs.length + 1) := by ring
    simp only [List.foldl_cons, List.length_cons]
    omega

lemma beVal_lt (bs : List Nat) (hb : ∀ b ∈ bs, b < 256) :
    beVal bs < 256 ^ bs.length := by
  have := beVal_aux bs 0 hb
  simpa [beVal] using this

/-- Numeric value of one lowercase hex digit character. -/
def hexCharVal (c : Char) : Nat :=
  if '0' ≤ c ∧ c ≤ '9' then c.toNat - Char.toNat '0'
  else if 'a' ≤ c ∧ c ≤ 'f' then c.toNat - Char.toNat 'a' + 10
  else 0

/-- Numeric value of a big-endian string of hex digit characters. -/
def hexVal (cs : List Char) : Nat := cs.foldl (fun a c => a * 16 + hexCharVal c) 0

lemma hexCharVal_digitChar : ∀ d, d < 16 → hexCharVal (Nat.digitChar d) = d := by decide

lemma hexVal_aux (l : List Nat) :
    ∀ a, (∀ d ∈ l, d < 16) →
      List.foldl (fun a c => a * 16 + hexCharVal c) a ((l.map Nat.digitChar).reverse) =
        a * 16 ^ l.length + Nat.ofDigits 16 l := by
  induction l with
  | nil =>
    intro a _
    simp [Nat.ofDigits_nil]
  | cons x xs ih =>
    intro a hd
    have hx : x < 16 := hd x (List.mem_cons_self x xs)
    rw [List.map_cons, List.reverse_cons, List.foldl_append,
        ih a (fun d h => hd d (List.mem_cons_of_mem x h))]
    simp only [List.foldl_cons, List.foldl_nil, List.length_cons, Nat.ofDigits_cons,
      hexCharVal_digitChar x hx]
    rw [pow_succ]
    ring

lemma hexVal_zeros (k : Nat) :
    List.foldl (fun a c => a * 16 + hexCharVal c) 0 (List.replicate k '0') = 0 := by
  induction k with
  | zero => rfl
  | succ k ih =>
    rw [List.replicate_succ, List.foldl_cons]
    simpa using ih

/-- The zero-padded hex rendering decodes to the rendered number. -/
lemma hexVal_hexPad (w n : Nat) : hexVal (hexPad w n).data = n := by
  rw [hexPad_data]
  unfold hexVal
  rw [List.foldl_append, hexVal_zeros]
  by_cases h0 : n = 0
  · subst h0
    simp [hexDigits]
    rfl
  · rw [hexDigits, if_neg h0, toHexAux_eq n n (Nat.le_refl n),
        hexVal_aux (Nat.digits 16 n) 0 (fun d h => Nat.digits_lt_base (by norm_num) h)]
    simp [Nat.ofDigits_digits]

/-- Recognizer of a lowercase hex digit character. -/
def isHexLowerChar (c : Char) : Bool := ('0' ≤ c && c ≤ '9') || ('a' ≤ c && c ≤ 'f')

lemma isHexLowerChar_digitChar : ∀ d, d < 16 → isHexLowerChar (Nat.digitChar d) = true := by
  decide

lemma hexPad_chars (w n : Nat) :
    ∀ c ∈ (hexPad w n).data, isHexLowerChar c = true := by
  intro c hc
  rw [hexPad_data] at hc
  rcases List.mem_append.mp hc with h | h
  · rw [List.eq_of_mem_replicate h]
    decide
  · by_cases h0 : n = 0
    · subst h0
      simp [hexDigits] at h
      rw [h]
      decide
    · rw [hexDigits, if_neg h0, toHexAux_eq n n (Nat.le_refl n)] at h
      rw [List.mem_reverse] at h
      rcases List.mem_map.mp h with ⟨d, hd, hcd⟩
      rw [← hcd]
      exact isHexLowerChar_digitChar d (Nat.digits_lt_base (by norm_num) hd)

/-! ### Helper facts about specific opcodes -/

lemma code_line_jumpdest (code : List Nat) (pc : Nat) (hj : code.getD pc 0 = JUMPDEST) :
    code_line code pc = "JUMPDEST" := by
  have hip : is_push JUMPDEST = false := rfl
  unfold code_line
  rw [hj, hip]
  simp only [Bool.false_and, Bool.false_eq_true, if_false]
  unfold insnStr
  rw [hip]
  simp only [Bool.false_eq_true, if_false]
  rfl

lemma nextPc_jumpdest (code : List Nat) (pc : Nat) (hpc : pc < code.length)
    (hj : code.getD pc 0 = JUMPDEST) :
    nextPc code pc = pc + 1 := by
  unfold nextPc
  rw [hj]
  have : push_width JUMPDEST = 0 := rfl
  omega

lemma terminator_facts (op : Nat) (h : TERMINATING.contains op = true) :
    is_push op = false ∧ op ≠ JUMPDEST ∧ push_width op = 0 := by
  have hmem : op ∈ TERMINATING := by simpa using h
  simp only [TERMINATING, List.mem_cons, List.not_mem_nil, or_false] at hmem
  rcases hmem with h1 | h1 | h1 | h1 | h1 <;> subst h1 <;> exact ⟨rfl, by decide, rfl⟩

/-- `disassemble` is the pass started at the initial state. -/
lemma disassemble_eq_from (code : List Nat) :
    disassemble code = disasmFrom code 0 true none := by
  unfold disassemble disasmFrom
  rw [Nat.sub_zero]

/-- The pass emits at most one line per remaining byte, plus the final flush
of an already open region. -/
lemma disasmFrom_length (code : List Nat) :
    ∀ k pc rc ds, code.length - pc ≤ k →
      (disasmFrom code pc rc ds).length ≤ (code.length - pc) + (dsFlush ds).length := by
  intro k
  induction k with
  | zero =>
    intro pc rc ds hk
    rw [disasmFrom_exit code pc rc ds (by omega)]
    omega
  | succ k ih =>
    intro pc rc ds hk
    by_cases hpc : pc < code.length
    · have hb := nextPc_bounds code pc hpc
      rw [disasmFrom_step code pc rc ds hpc]
      by_cases hg : (rc || (code.getD pc 0 == JUMPDEST)) = true
      · rw [if_pos hg]
        have hih := ih (nextPc code pc) (!(TERMINATING.contains (code.getD pc 0))) none
          (by omega)
        cases ds with
        | none =>
          simp only [dsFlush, List.nil_append, List.length_cons, List.length_nil] at *
          omega
        | some sd =>
          obtain ⟨s0, d0⟩ := sd
          simp only [dsFlush, List.singleton_append, List.length_cons, List.length_nil,
            List.length_singleton] at *
          omega
      · rw [if_neg hg]
        have hih := ih (nextPc code pc) false
          (dsPush ds pc (code.getD pc 0) (push_data code pc)) (by omega)
        have hone : (dsFlush (dsPush ds pc (code.getD pc 0) (push_data code pc))).length = 1 := by
          cases ds with
          | none => rfl
          | some sd =>
            obtain ⟨s0, d0⟩ := sd
            rfl
        cases ds with
        | none =>
          simp only [dsFlush, List.length_nil]
          omega
        | some sd =>
          obtain ⟨s0, d0⟩ := sd
          simp only [dsFlush, List.length_singleton]
          omega
    · rw [disasmFrom_exit code pc rc ds (by omega)]
      omega

/-! ### The claims -/

/-- C8: disassemble applied to the empty byte buffer returns an empty output
sequence, and raises no error (the function is total and evaluates to the
empty list). -/
theorem claim_C8 : disassemble [] = [] := rfl

/-- C5: disassemble terminates on every byte buffer and returns an output
sequence without failure: the loop, given any fuel beyond one unit per byte,
stops by itself with the same (defined) result, the output has at most one
line per byte, and each iteration advances the cursor by at least one byte
(by 1 + operand width, clamped at the end of the buffer, as the decoder
guarantees). -/
theorem claim_C5 (code : List Nat) (extra : Nat) :
    disasmLoop code (code.length + extra) 0 true none = disassemble code ∧
    (disassemble code).length ≤ code.length ∧
    (∀ pc, pc < code.length →
      pc < nextPc code pc ∧ nextPc code pc = min (pc + 1 + push_width (code.getD pc 0))
        code.length ∧ nextPc code pc ≤ code.length) := by
  refine ⟨?_, ?_, ?_⟩
  · unfold disassemble
    exact disasmLoop_fuel code (code.length + extra) code.length 0 true none
      (by omega) (by omega)
  · rw [disassemble_eq_from]
    have := disasmFrom_length code code.length 0 true none (by omega)
    simpa [dsFlush] using this
  · intro pc hpc
    have hb := nextPc_bounds code pc hpc
    exact ⟨hb.1, rfl, hb.2⟩

theorem claim_C5_witness :
    disasmLoop [0x00] (1 + 7) 0 true none = disassemble [0x00] ∧
    (disassemble [0x00]).length ≤ 1 ∧
    (0 < nextPc [0x00] 0 ∧ nextPc [0x00] 0 = min (0 + 1 + push_width (([0x00] : List Nat).getD 0 0))
      1 ∧ nextPc [0x00] 0 ≤ 1) :=
  ⟨(claim_C5 [0x00] 7).1, (claim_C5 [0x00] 7).2.1, (claim_C5 [0x00] 7).2.2 0 (by decide)⟩

/-- C2: a JUMPDEST decoded in data mode closes and renders the open data
region first, then renders the JUMPDEST itself as a normal instruction line
at its own offset, and the pass continues in code mode. -/
theorem claim_C2 (code : List Nat) (pc s : Nat) (d : List Nat)
    (hpc : pc < code.length) (hj : code.getD pc 0 = JUMPDEST) :
    disasmFrom code pc false (some (s, d)) =
      renderData s d :: (hexPad 4 pc ++ ": " ++ "JUMPDEST") ::
        disasmFrom code (pc + 1) true none := by
  rw [dataMode_run code pc s d, dataScan_jumpdest code pc hpc hj]
  simp only [List.append_nil]
  show renderData s d :: (hexPad 4 pc ++ ": " ++ code_line code pc) ::
      disasmFrom code (nextPc code pc) true none = _
  rw [code_line_jumpdest code pc hj, nextPc_jumpdest code pc hpc hj]

theorem claim_C2_witness :
    disasmFrom [0x5b] 0 false (some (7, [0xaa])) =
      renderData 7 [0xaa] :: (hexPad 4 0 ++ ": " ++ "JUMPDEST") ::
        disasmFrom [0x5b] 1 true none :=
  claim_C2 [0x5b] 0 7 [0xaa] (by decide) (by decide)

/-- C3: a push decoded in code mode whose declared operand width extends past
the end of the buffer renders as the truncated-push line with exactly the
available operand bytes, and no further lines follow it; in particular the
single byte 0x60 disassembles to exactly one line. -/
theorem claim_C3 :
    (∀ (code : List Nat) (pc : Nat) (ds : Option (Nat × List Nat)),
      pc < code.length →
      is_push (code.getD pc 0) = true →
      code.length < pc + 1 + push_width (code.getD pc 0) →
      disasmFrom code pc true ds =
        dsFlush ds ++
          [hexPad 4 pc ++ ": " ++
            ("PUSH" ++ toString (push_width (code.getD pc 0)) ++ " 0x" ++
              bytesHex (push_data code pc) ++ " # truncated")] ∧
      push_data code pc = code.drop (pc + 1)) ∧
    disassemble [0x60] = ["0000: PUSH1 0x # truncated"] := by
  constructor
  · intro code pc ds hpc hpush hlen
    have hlt : (push_data code pc).length < push_width (code.getD pc 0) := by
      rw [push_data_eq, List.length_take, List.length_drop]
      omega
    have hcl : code_line code pc =
        "PUSH" ++ toString (push_width (code.getD pc 0)) ++ " 0x" ++
          bytesHex (push_data code pc) ++ " # truncated" := by
      unfold code_line
      rw [if_pos (show (is_push (code.getD pc 0) &&
          decide ((push_data code pc).length < push_width (code.getD pc 0))) = true by
        rw [hpush]
        simp only [Bool.true_and, decide_eq_true_eq]
        exact hlt)]
    have hnext : nextPc code pc = code.length := by
      unfold nextPc
      omega
    constructor
    · rw [disasmFrom_step code pc true ds hpc, if_pos (by simp), hcl, hnext,
          disasmFrom_exit code code.length _ none (Nat.le_refl _)]
      rfl
    · rw [push_data_eq]
      exact List.take_of_length_le (by rw [List.length_drop]; omega)
  · decide

theorem claim_C3_witness :
    (disasmFrom [0x61, 0xaa] 0 true none =
      dsFlush none ++
        [hexPad 4 0 ++ ": " ++
          ("PUSH" ++ toString (push_width (([0x61, 0xaa] : List Nat).getD 0 0)) ++ " 0x" ++
            bytesHex (push_data [0x61, 0xaa] 0) ++ " # truncated")] ∧
      push_data [0x61, 0xaa] 0 = ([0x61, 0xaa] : List Nat).drop 1) ∧
    disassemble [0x60] = ["0000: PUSH1 0x # truncated"] :=
  ⟨claim_C3.1 [0x61, 0xaa] 0 none (by decide) (by decide) (by decide), claim_C3.2⟩

/-- C6: a rendered DATA line consists of the region start offset, the marker
": DATA 0x" and a hex payload of exactly twice as many digits as the region
has bytes, whose value is the big-endian integer of those bytes (so leading
zero bytes are preserved by the padding). -/
theorem claim_C6 (s : Nat) (d : List Nat) (hne : d ≠ []) (hb : ∀ b ∈ d, b < 256) :
    renderData s d = hexPad 4 s ++ ": DATA 0x" ++ hexPad (d.length * 2) (beVal d) ∧
    (hexPad (d.length * 2) (beVal d)).length = 2 * d.length ∧
    hexVal (hexPad (d.length * 2) (beVal d)).data = beVal d := by
  refine ⟨rfl, ?_, hexVal_hexPad _ _⟩
  have hpos : 0 < d.length := List.length_pos.mpr hne
  have hlt : beVal d < 16 ^ (d.length * 2) := by
    have h1 : beVal d < 256 ^ d.length := beVal_lt d hb
    have h2 : (256 : Nat) ^ d.length = 16 ^ (d.length * 2) := by
      calc (256 : Nat) ^ d.length = (16 ^ 2) ^ d.length := by norm_num
        _ = 16 ^ (2 * d.length) := (pow_mul 16 2 d.length).symm
        _ = 16 ^ (d.length * 2) := by rw [Nat.mul_comm]
    omega
  rw [hexPad_length (d.length * 2) (beVal d) (by omega) hlt]
  omega

theorem claim_C6_witness :
    renderData 1 [0x00, 0xde] =
      hexPad 4 1 ++ ": DATA 0x" ++ hexPad (([0x00, 0xde] : List Nat).length * 2)
        (beVal [0x00, 0xde]) ∧
    (hexPad (([0x00, 0xde] : List Nat).length * 2) (beVal [0x00, 0xde])).length = 2 * 2 ∧
    hexVal (hexPad (([0x00, 0xde] : List Nat).length * 2) (beVal [0x00, 0xde])).data =
      beVal [0x00, 0xde] :=
  claim_C6 1 [0x00, 0xde] (by decide) (by decide)

/-- C1: immediately after a code-mode instruction with a terminating opcode
(JUMP, STOP, REVERT, RETURN, INVALID) is rendered, the pass is in data mode,
and every subsequent byte up to the next byte decoded as JUMPDEST (or the
end of the buffer) is absorbed into a single DATA region starting right
after the terminator; no instruction line is rendered for any of those bytes
(push operand bytes are skipped by the data-mode instruction-shaped scan and
absorbed with their opcode byte). -/
theorem claim_C1 (code : List Nat) (pc : Nat) (ds : Option (Nat × List Nat))
    (hpc : pc < code.length)
    (hterm : TERMINATING.contains (code.getD pc 0) = true) :
    (stepPass code pc true ds).readingCode = false ∧
    disasmFrom code pc true ds =
      dsFlush ds ++ (hexPad 4 pc ++ ": " ++ code_line code pc) ::
        ((if (dataScan code (pc + 1)).1 = [] then []
          else [renderData (pc + 1) (dataScan code (pc + 1)).1]) ++
          afterScan code (dataScan code (pc + 1)).2) ∧
    (dataScan code (pc + 1)).1 =
      (code.drop (pc + 1)).take
        (((dataScan code (pc + 1)).2).getD code.length - (pc + 1)) ∧
    (∀ q, (dataScan code (pc + 1)).2 = some q →
      pc + 1 ≤ q ∧ q < code.length ∧ code.getD q 0 = JUMPDEST) := by
  obtain ⟨hip, hnj, hw⟩ := terminator_facts _ hterm
  have hnext : nextPc code pc = pc + 1 := by
    unfold nextPc
    rw [hw]
    omega
  refine ⟨?_, ?_, ?_, ?_⟩
  · unfold stepPass
    rw [if_pos (by simp), hterm]
    rfl
  · rw [disasmFrom_step code pc true ds hpc, if_pos (by simp), hterm, hnext]
    simp only [Bool.not_true]
    rw [dataModeNone_run code (pc + 1)]
  · exact dataScan_bytes code (code.length - (pc + 1)) (pc + 1) (by omega)
  · intro q hq
    exact dataScan_some_facts code (code.length - (pc + 1)) (pc + 1) q (by omega) hq

theorem claim_C1_witness :
    (stepPass [0x00, 0xff, 0x5b, 0x00] 0 true none).readingCode = false ∧
    disasmFrom [0x00, 0xff, 0x5b, 0x00] 0 true none =
      dsFlush none ++ (hexPad 4 0 ++ ": " ++ code_line [0x00, 0xff, 0x5b, 0x00] 0) ::
        ((if (dataScan [0x00, 0xff, 0x5b, 0x00] 1).1 = [] then []
          else [renderData 1 (dataScan [0x00, 0xff, 0x5b, 0x00] 1).1]) ++
          afterScan [0x00, 0xff, 0x5b, 0x00] (dataScan [0x00, 0xff, 0x5b, 0x00] 1).2) ∧
    (dataScan [0x00, 0xff, 0x5b, 0x00] 1).1 =
      (([0x00, 0xff, 0x5b, 0x00] : List Nat).drop 1).take
        (((dataScan [0x00, 0xff, 0x5b, 0x00] 1).2).getD 4 - 1) ∧
    (1 ≤ 2 ∧ 2 < 4 ∧ ([0x00, 0xff, 0x5b, 0x00] : List Nat).getD 2 0 = JUMPDEST) := by
  have h := claim_C1 [0x00, 0xff, 0x5b, 0x00] 0 none (by decide) (by decide)
  exact ⟨h.1, h.2.1, h.2.2.1, h.2.2.2 2 (by decide)⟩

/-- C4: the offsets embedded in successive output lines are strictly
increasing, every line is the rendering of an event at its offset (the
decode position of the instruction or the start of the data region), and
every such offset lies inside the buffer. -/
theorem claim_C4 (code : List Nat) :
    List.Chain' (fun a b => evOff a < evOff b) (eventsFrom code 0 true none) ∧
    disassemble code = (eventsFrom code 0 true none).map renderEv ∧
    (∀ e, renderEv e = hexPad 4 (evOff e) ++ ": " ++ evRest e) ∧
    (∀ e ∈ eventsFrom code 0 true none, evOff e < code.length) := by
  refine ⟨?_, disassemble_eq_map code, fun e => rfl, ?_⟩
  · exact (events_mono code code.length 0 true none (by omega) (by simp)).1
  · exact events_off_lt code code.length 0 true none (by omega) (by simp)

theorem claim_C4_witness :
    List.Chain' (fun a b => evOff a < evOff b) (eventsFrom [0x00, 0xff] 0 true none) ∧
    disassemble [0x00, 0xff] = (eventsFrom [0x00, 0xff] 0 true none).map renderEv ∧
    renderEv (Ev.data 1 [0xff]) =
      hexPad 4 (evOff (Ev.data 1 [0xff])) ++ ": " ++ evRest (Ev.data 1 [0xff]) ∧
    evOff (Ev.data 1 [0xff]) < 2 := by
  have h := claim_C4 [0x00, 0xff]
  exact ⟨h.1, h.2.1, h.2.2.1 (Ev.data 1 [0xff]), h.2.2.2 (Ev.data 1 [0xff]) (by decide)⟩

/-- C7: a data region is nonempty from the moment it is created (every
rendered DATA event carries at least one byte), one loop iteration is
exactly one application of the loop body, and the loop body preserves the
invariant that an open region exists only in data mode and is nonempty. -/
theorem claim_C7 (code : List Nat) (pc : Nat) (rc : Bool) (ds : Option (Nat × List Nat)) :
    (∀ s d, Ev.data s d ∈ eventsFrom code 0 true none → d ≠ []) ∧
    (pc < code.length →
      eventsFrom code pc rc ds =
        (stepPass code pc rc ds).emitted ++
          eventsFrom code (stepPass code pc rc ds).pc (stepPass code pc rc ds).readingCode
            (stepPass code pc rc ds).dataSection) ∧
    ((rc = true → ds = none) → (∀ s d, ds = some (s, d) → d ≠ []) →
      ((stepPass code pc rc ds).readingCode = true →
        (stepPass code pc rc ds).dataSection = none) ∧
      (∀ s d, (stepPass code pc rc ds).dataSection = some (s, d) → d ≠ [])) := by
  refine ⟨?_, fun h => eventsFrom_step code pc rc ds h, fun h1 h2 => stepPass_inv code pc rc ds h1 h2⟩
  intro s d hmem
  exact dataEv_nonempty code code.length 0 true none (by omega) (by simp) s d hmem

theorem claim_C7_witness :
    ([0xff] : List Nat) ≠ [] ∧
    eventsFrom [0x00, 0xff] 0 true none =
      (stepPass [0x00, 0xff] 0 true none).emitted ++
        eventsFrom [0x00, 0xff] (stepPass [0x00, 0xff] 0 true none).pc
          (stepPass [0x00, 0xff] 0 true none).readingCode
          (stepPass [0x00, 0xff] 0 true none).dataSection ∧
    (stepPass [0x5b] 0 false (some (0, [0x01]))).dataSection = none := by
  refine ⟨(claim_C7 [0x00, 0xff] 0 true none).1 1 [0xff] (by decide),
    (claim_C7 [0x00, 0xff] 0 true none).2.1 (by decide),
    ((claim_C7 [0x5b] 0 false (some (0, [0x01]))).2.2
      (fun h => by simp at h) (fun s d hsd => ?_)).1 rfl⟩
  have h1 : d = [0x01] := by
    have := (Option.some.injEq _ _).mp hsd
    exact (Prod.mk.injEq _ _ _ _).mp this |>.2.symm
  rw [h1]
  decide

/-- C10: every DATA line of the output is immediately preceded by an
instruction line; in particular the first event of a nonempty output is
never a DATA event, and two DATA events are never adjacent. -/
theorem claim_C10 (code : List Nat) :
    disassemble code = (eventsFrom code 0 true none).map renderEv ∧
    (∀ e, (eventsFrom code 0 true none).head? = some e → evIsData e = false) ∧
    List.Chain' okEv (eventsFrom code 0 true none) := by
  refine ⟨disassemble_eq_map code, ?_, ?_⟩
  · intro e he
    obtain ⟨o, t, ht⟩ := eventsFrom_code_head code 0 e he
    rw [ht]
    rfl
  · have h := events_chain code code.length 0 true none (Ev.insn 0 "") (by omega)
      (fun _ => rfl) (Or.inl rfl)
    exact h.tail

theorem claim_C10_witness :
    disassemble [0x00, 0xff] = (eventsFrom [0x00, 0xff] 0 true none).map renderEv ∧
    evIsData (Ev.insn 0 "STOP") = false ∧
    List.Chain' okEv (eventsFrom [0x00, 0xff] 0 true none) :=
  ⟨(claim_C10 [0x00, 0xff]).1,
   (claim_C10 [0x00, 0xff]).2.1 (Ev.insn 0 "STOP") (by decide),
   (claim_C10 [0x00, 0xff]).2.2⟩

/-! ### C9: offset rendering at the start of every line -/

/-- In an all-JUMPDEST buffer, every position inside the buffer yields its
own JUMPDEST instruction line. -/
lemma replicate_jd_mem (n : Nat) :
    ∀ k pc q, n - pc ≤ k → pc ≤ q → q < n →
      (hexPad 4 q ++ ": " ++ "JUMPDEST") ∈
        disasmFrom (List.replicate n JUMPDEST) pc true none := by
  intro k
  induction k with
  | zero =>
    intro pc q hk hpq hqn
    exact absurd hqn (by omega)
  | succ k ih =>
    intro pc q hk hpq hqn
    have hlen : (List.replicate n JUMPDEST).length = n := List.length_replicate n _
    have hpc : pc < (List.replicate n JUMPDEST).length := by omega
    have hget : (List.replicate n JUMPDEST).getD pc 0 = JUMPDEST := by
      rw [List.getD_eq_getElem _ 0 hpc]
      exact List.getElem_replicate _ hpc
    rw [disasmFrom_step _ pc true none hpc, if_pos (by simp),
        code_line_jumpdest _ pc hget, nextPc_jumpdest _ pc hpc hget, hget,
        contains_JUMPDEST]
    simp only [dsFlush, List.nil_append, Bool.not_false]
    by_cases hq : q = pc
    · subst hq
      exact List.mem_cons_self _ _
    · exact List.mem_cons_of_mem _ (ih (pc + 1) q (by omega) (by omega) hqn)

/-- C9 (amended): for buffers of at most 0x10000 bytes every output line
begins with its offset zero-padded to exactly 4 lowercase hex digits
followed by ": "; in general the offset field is only zero-padded to a
minimum of 4 digits and grows beyond 4 digits for offsets at or above
0x10000. -/
theorem claim_C9 (code : List Nat) (hlen : code.length ≤ 65536) :
    ∀ line ∈ disassemble code,
      ∃ off rest, off < 65536 ∧ line = hexPad 4 off ++ ": " ++ rest ∧
        (hexPad 4 off).length = 4 ∧
        ∀ c ∈ (hexPad 4 off).data, isHexLowerChar c = true := by
  intro line hline
  rw [disassemble_eq_map code] at hline
  obtain ⟨e, he, rfl⟩ := List.mem_map.mp hline
  have hoff : evOff e < code.length :=
    events_off_lt code code.length 0 true none (by omega) (by simp) e he
  refine ⟨evOff e, evRest e, by omega, rfl, ?_, hexPad_chars 4 (evOff e)⟩
  refine hexPad_length 4 (evOff e) (by norm_num) ?_
  have h16 : (16 : Nat) ^ 4 = 65536 := by norm_num
  omega

theorem claim_C9_witness :
    ∃ off rest, off < 65536 ∧ "0000: STOP" = hexPad 4 off ++ ": " ++ rest ∧
      (hexPad 4 off).length = 4 ∧
      ∀ c ∈ (hexPad 4 off).data, isHexLowerChar c = true :=
  claim_C9 [0x00] (by decide) "0000: STOP" (by decide)

/-- C9 (counterexample to the claim as stated): on the 65537-byte buffer of
JUMPDEST opcodes, the line at offset 0x10000 does not begin with 4 hex
digits followed by ": " (its offset field has five digits), so not every
output line of every buffer does. -/
theorem claim_C9_counterexample :
    ¬ (∀ line ∈ disassemble (List.replicate 65537 JUMPDEST),
        ((line.data.take 4).all isHexLowerChar = true ∧
          line.data.getD 4 ' ' = ':' ∧ line.data.getD 5 ' ' = ' ')) := by
  intro h
  have hmem : (hexPad 4 65536 ++ ": " ++ "JUMPDEST") ∈
      disassemble (List.replicate 65537 JUMPDEST) := by
    rw [disassemble_eq_from]
    exact replicate_jd_mem 65537 65537 0 65536 (by omega) (by omega) (by omega)
  have h2 := (h _ hmem).2.1
  rw [show hexPad 4 65536 ++ ": " ++ "JUMPDEST" = "10000: JUMPDEST" from rfl] at h2
  exact absurd h2 (by decide)

end Disasm
